import Mathlib

/-!
Shallow embedding of the Mezzanine forklift ultrasonic warning system:
the ESP32 firmware `esp32/src/main.cpp` (echo-ranging driver `readSR04`,
transmitter `sendUDPPacket`, main `loop`) and the monitor node's receiver
and alarm controller described by the design spec (the Pi-side source is
not part of the repository).

Machine time (`micros()`) is modelled as `Nat` microseconds; the busy-wait
loops poll the echo line once per microsecond.  Firmware `float` values are
modelled as exact rationals `ℚ`.
-/

namespace Mezzanine

/-- Sentinel distance for "no reading": the literal `-1.0` of the firmware. -/
def INVALID : ℚ := -1

/-- Firmware constant `num_sensors` (main.cpp: `const uint8_t num_sensors = 2`). -/
def num_sensors : Nat := 2

/-- Firmware constant `measurement_interval_ms` (main.cpp: `= 100`). -/
def measurement_interval_ms : Nat := 100

/-- First busy-wait of `readSR04` (main.cpp lines 133-139): starting from
poll time `t` (µs after the trigger pulse, with `timeout_start` captured at
time 0), repeatedly read the echo line; return the poll time at which the
line is first seen high, or `none` when the `micros() - timeout_start >
30000` check fires while the line is still low.  `fuel` is an upper bound
on the number of polls; `30002` polls always suffice. -/
def waitRise (echo : Nat → Bool) : Nat → Nat → Option Nat
  | 0, _ => none
  | fuel + 1, t =>
    if echo t then some t
    else if 30000 < t then none
    else waitRise echo fuel (t + 1)

/-- Second busy-wait of `readSR04` (main.cpp lines 141-149): `r` is the time
`echo_start = timeout_start` at which the line was seen high; from poll time
`t`, wait for the line to go low and return the measured high duration
`t - r`, or `none` when the `micros() - timeout_start > 30000` check fires
while the line is still high. -/
def waitFall (echo : Nat → Bool) (r : Nat) : Nat → Nat → Option Nat
  | 0, _ => none
  | fuel + 1, t =>
    if echo t then
      if 30000 < t - r then none
      else waitFall echo r fuel (t + 1)
    else some (t - r)

/-- The echo high duration measured by `readSR04`, or `none` on either
timeout. -/
def echoDuration (echo : Nat → Bool) : Option Nat :=
  match waitRise echo 30002 0 with
  | none => none
  | some r => waitFall echo r 30002 r

/-- `readSR04(trig_pin, echo_pin)` (main.cpp lines 113-158).  The trigger
side-effects are pure waveform generation; the input to the measurement is
the echo line's level over time, modelled as `echo : Nat → Bool` (µs after
the trigger pulse).  Returns `-1.0` on either 30 ms timeout, else
`echo_duration / 58.0`. -/
def readSR04 (echo : Nat → Bool) : ℚ :=
  match echoDuration echo with
  | none => INVALID
  | some d => (d : ℚ) / 58

/-! ### Characterisation of the busy-wait loops -/

theorem waitRise_eq_none_iff (echo : Nat → Bool) :
    ∀ fuel t, 30002 ≤ t + fuel → t ≤ 30001 →
      (waitRise echo fuel t = none ↔ ∀ u, t ≤ u → u ≤ 30001 → echo u = false) := by
  intro fuel
  induction fuel with
  | zero => intro t h1 h2; omega
  | succ fuel ih =>
    intro t h1 h2
    by_cases he : echo t
    · simp only [waitRise, he, if_pos]
      constructor
      · intro h; exact absurd h (by simp)
      · intro h; exact absurd (h t le_rfl h2) (by simp [he])
    · by_cases ht : 30000 < t
      · have ht' : t = 30001 := by omega
        simp only [waitRise, he, if_neg, if_pos ht, Bool.false_eq_true, ite_false]
        constructor
        · intro _ u hu1 hu2
          have : u = t := by omega
          subst this
          simpa using he
        · intro _; trivial
      · have hrec := ih (t + 1) (by omega) (by omega)
        simp only [waitRise, he, Bool.false_eq_true, ite_false, if_neg ht]
        rw [hrec]
        constructor
        · intro h u hu1 hu2
          rcases Nat.lt_or_ge t u with h' | h'
          · exact h u (by omega) hu2
          · have : u = t := by omega
            subst this
            simpa using he
        · intro h u hu1 hu2
          exact h u (by omega) hu2

theorem waitRise_eq_some (echo : Nat → Bool) :
    ∀ fuel t r, t ≤ 30001 → waitRise echo fuel t = some r →
      t ≤ r ∧ r ≤ 30001 ∧ echo r = true ∧ ∀ u, t ≤ u → u < r → echo u = false := by
  intro fuel
  induction fuel with
  | zero => intro t r _ h; simp [waitRise] at h
  | succ fuel ih =>
    intro t r ht h
    by_cases he : echo t
    · simp only [waitRise, he, if_pos, Option.some.injEq] at h
      subst h
      exact ⟨le_rfl, ht, he, fun u hu1 hu2 => by omega⟩
    · by_cases htt : 30000 < t
      · simp [waitRise, he, htt] at h
      · simp only [waitRise, he, Bool.false_eq_true, ite_false, if_neg htt] at h
        obtain ⟨h1, h2, h3, h4⟩ := ih (t + 1) r (by omega) h
        refine ⟨by omega, h2, h3, fun u hu1 hu2 => ?_⟩
        rcases Nat.lt_or_ge u (t + 1) with h' | h'
        · have : u = t := by omega
          subst this
          simpa using he
        · exact h4 u h' hu2

theorem waitRise_eq_some_of (echo : Nat → Bool) :
    ∀ fuel t r, 30002 ≤ t + fuel → t ≤ r → r ≤ 30001 → echo r = true →
      (∀ u, t ≤ u → u < r → echo u = false) → waitRise echo fuel t = some r := by
  intro fuel
  induction fuel with
  | zero => intro t r h1 h2 h3 _ _; omega
  | succ fuel ih =>
    intro t r h1 h2 h3 hr hmin
    by_cases he : echo t
    · have : t = r := by
        by_contra hne
        have : t < r := by omega
        exact absurd he (by simp [hmin t le_rfl this])
      subst this
      simp [waitRise, he]
    · have htr : t < r := by
        rcases Nat.lt_or_ge t r with h' | h'
        · exact h'
        · have : t = r := by omega
          subst this
          exact absurd hr (by simpa using he)
      have htt : ¬ 30000 < t := by omega
      simp only [waitRise, he, Bool.false_eq_true, ite_false, if_neg htt]
      exact ih (t + 1) r (by omega) (by omega) h3 hr
        (fun u hu1 hu2 => hmin u (by omega) hu2)

theorem waitFall_eq_none_iff (echo : Nat → Bool) (r : Nat) :
    ∀ fuel t, r ≤ t → t ≤ r + 30001 → r + 30002 ≤ t + fuel →
      (waitFall echo r fuel t = none ↔
        ∀ u, t ≤ u → u ≤ r + 30001 → echo u = true) := by
  intro fuel
  induction fuel with
  | zero => intro t h1 h2 h3; omega
  | succ fuel ih =>
    intro t h1 h2 h3
    by_cases he : echo t
    · by_cases htt : 30000 < t - r
      · have ht' : t = r + 30001 := by omega
        simp only [waitFall, he, if_pos, if_pos htt]
        constructor
        · intro _ u hu1 hu2
          have : u = t := by omega
          subst this
          exact he
        · intro _; trivial
      · have hrec := ih (t + 1) (by omega) (by omega) (by omega)
        simp only [waitFall, he, if_pos, if_neg htt]
        rw [hrec]
        constructor
        · intro h u hu1 hu2
          rcases Nat.lt_or_ge t u with h' | h'
          · exact h u (by omega) hu2
          · have : u = t := by omega
            subst this
            exact he
        · intro h u hu1 hu2
          exact h u (by omega) hu2
    · simp only [waitFall, he, Bool.false_eq_true, ite_false]
      constructor
      · intro h; exact absurd h (by simp)
      · intro h
        exact absurd (h t le_rfl h2) (by simp [he])

theorem waitFall_eq_some (echo : Nat → Bool) (r : Nat) :
    ∀ fuel t d, r ≤ t → waitFall echo r fuel t = some d →
      t ≤ r + d ∧ echo (r + d) = false ∧
        (∀ u, t ≤ u → u < r + d → echo u = true) ∧ (d ≤ 30001 ∨ r + d = t) := by
  intro fuel
  induction fuel with
  | zero => intro t d _ h; simp [waitFall] at h
  | succ fuel ih =>
    intro t d h1 h
    by_cases he : echo t
    · by_cases htt : 30000 < t - r
      · simp [waitFall, he, htt] at h
      · simp only [waitFall, he, if_pos, if_neg htt] at h
        obtain ⟨g1, g2, g3, g4⟩ := ih (t + 1) d (by omega) h
        refine ⟨by omega, g2, fun u hu1 hu2 => ?_, Or.inl (by omega)⟩
        rcases Nat.lt_or_ge u (t + 1) with h' | h'
        · have : u = t := by omega
          subst this
          exact he
        · exact g3 u h' hu2
    · simp only [waitFall, he, Bool.false_eq_true, ite_false, Option.some.injEq] at h
      subst h
      have ht : r + (t - r) = t := by omega
      rw [ht]
      exact ⟨le_rfl, by simpa using he, fun u hu1 hu2 => by omega, Or.inr rfl⟩

theorem waitFall_eq_some_of (echo : Nat → Bool) (r : Nat) :
    ∀ fuel t d, r ≤ t → t ≤ r + d → echo (r + d) = false →
      (∀ u, t ≤ u → u < r + d → echo u = true) → d ≤ 30001 →
      r + 30002 ≤ t + fuel → waitFall echo r fuel t = some d := by
  intro fuel
  induction fuel with
  | zero => intro t d h1 h2 _ _ h5 h6; omega
  | succ fuel ih =>
    intro t d h1 h2 hlow hhigh h5 h6
    by_cases hte : t = r + d
    · subst hte
      have he : echo (r + d) = false := hlow
      simp only [waitFall, he, Bool.false_eq_true, ite_false]
      congr 1
      omega
    · have htlt : t < r + d := by omega
      have he : echo t = true := hhigh t le_rfl htlt
      have htt : ¬ 30000 < t - r := by omega
      simp only [waitFall, he, if_pos, if_neg htt]
      exact ih (t + 1) d (by omega) (by omega) hlow
        (fun u hu1 hu2 => hhigh u (by omega) hu2) h5 (by omega)

/-! ### Claims about the echo-ranging driver -/

theorem INVALID_eq : INVALID = -1 := rfl

theorem echoDuration_le (echo : Nat → Bool) (d : Nat)
    (h : echoDuration echo = some d) : d ≤ 30001 := by
  unfold echoDuration at h
  rcases hr : waitRise echo 30002 0 with _ | r
  · rw [hr] at h; exact absurd h (by simp)
  · rw [hr] at h
    simp only [] at h
    rcases waitFall_eq_some echo r 30002 r d le_rfl h with ⟨_, _, _, hd | hd⟩
    · exact hd
    · omega

theorem readSR04_of_none (echo : Nat → Bool)
    (h : echoDuration echo = none) : readSR04 echo = INVALID := by
  unfold readSR04
  rw [h]

theorem readSR04_of_some (echo : Nat → Bool) (d : Nat)
    (h : echoDuration echo = some d) : readSR04 echo = (d : ℚ) / 58 := by
  unfold readSR04
  rw [h]

/-- **C1.**  `readSR04` returns the sentinel `-1.0` exactly when one of its
two timeout checks fires: either the echo line is still low at every poll
up to 30001 µs (the first poll at which `micros() - timeout_start > 30000`
holds), or the line rises at some poll `r` and is still high at every poll
up to `r + 30001` µs.  In every other case a non-sentinel distance is
returned.  ("Exceeds 30 ms" is formalised as the firmware's strict
`> 30000` µs deadline check firing at a poll.) -/
theorem claim_C1_invalid_iff_timeout (echo : Nat → Bool) :
    readSR04 echo = INVALID ↔
      ((∀ t, t ≤ 30001 → echo t = false) ∨
        (∃ r, r ≤ 30001 ∧ echo r = true ∧ (∀ u, u < r → echo u = false) ∧
          (∀ i, i ≤ 30001 → echo (r + i) = true))) := by
  rcases hr : waitRise echo 30002 0 with _ | r
  · have hE : echoDuration echo = none := by
      unfold echoDuration
      rw [hr]
    rw [readSR04_of_none echo hE]
    refine ⟨fun _ => Or.inl fun t ht => ?_, fun _ => rfl⟩
    exact ((waitRise_eq_none_iff echo 30002 0 (by omega) (by omega)).mp hr)
      t (Nat.zero_le t) ht
  · obtain ⟨-, hr1, hr2, hr3⟩ := waitRise_eq_some echo 30002 0 r (by omega) hr
    rcases hf : waitFall echo r 30002 r with _ | d
    · have hE : echoDuration echo = none := by
        unfold echoDuration
        rw [hr]
        exact hf
      rw [readSR04_of_none echo hE]
      refine ⟨fun _ => Or.inr ⟨r, hr1, hr2,
        fun u hu => hr3 u (Nat.zero_le u) hu, fun i hi => ?_⟩, fun _ => rfl⟩
      exact ((waitFall_eq_none_iff echo r 30002 r le_rfl (by omega)
        (by omega)).mp hf) (r + i) (by omega) (by omega)
    · have hE : echoDuration echo = some d := by
        unfold echoDuration
        rw [hr]
        exact hf
      rw [readSR04_of_some echo d hE]
      obtain ⟨-, hlow, hhigh, hdle⟩ := waitFall_eq_some echo r 30002 r d le_rfl hf
      have hd30 : d ≤ 30001 := by
        rcases hdle with h | h
        · exact h
        · omega
      have hpos : (0 : ℚ) ≤ (d : ℚ) / 58 := by positivity
      constructor
      · intro h
        rw [INVALID_eq] at h
        linarith
      · rintro (hall | ⟨r2, hr2a, hr2b, hr2c, hr2d⟩)
        · exact absurd hr2 (by simp [hall r hr1])
        · have hrr : r2 = r := by
            rcases Nat.lt_trichotomy r2 r with h | h | h
            · exact absurd hr2b (by simp [hr3 r2 (Nat.zero_le r2) h])
            · exact h
            · exact absurd hr2 (by simp [hr2c r h])
          subst hrr
          exact absurd hlow (by simp [hr2d d hd30])

/-- **C2.**  On a successful (non-timeout) measurement whose echo high
duration is `d` µs, `readSR04` returns exactly `d / 58.0`: no clamping and
no rounding inside the driver. -/
theorem claim_C2_success_div58 (echo : Nat → Bool) (r d : Nat)
    (hr : r ≤ 30001) (he : echo r = true)
    (hmin : ∀ u, u < r → echo u = false)
    (hd : d ≤ 30001) (hhigh : ∀ i, i < d → echo (r + i) = true)
    (hlow : echo (r + d) = false) :
    readSR04 echo = (d : ℚ) / 58 := by
  have h1 : waitRise echo 30002 0 = some r :=
    waitRise_eq_some_of echo 30002 0 r (by omega) (Nat.zero_le r) hr he
      (fun u _ hu => hmin u hu)
  have h2 : waitFall echo r 30002 r = some d :=
    waitFall_eq_some_of echo r 30002 r d le_rfl (by omega) hlow
      (fun u hu1 hu2 => by
        have hu : u = r + (u - r) := by omega
        rw [hu]
        exact hhigh (u - r) (by omega)) hd (by omega)
  have hE : echoDuration echo = some d := by
    unfold echoDuration
    rw [h1]
    exact h2
  exact readSR04_of_some echo d hE

/-- Example echo waveform for the `claim_C2_success_div58` witness: rises at
5 µs and stays high for 116 µs. -/
def exEcho : Nat → Bool := fun t => decide (5 ≤ t ∧ t < 121)

theorem claim_C2_success_div58_witness : readSR04 exEcho = (116 : ℚ) / 58 :=
  claim_C2_success_div58 exEcho 5 116 (by decide) (by decide)
    (by decide) (by decide) (by decide) (by decide)

/-- **C8.**  Every return value of `readSR04` is either exactly the sentinel
`-1.0` or a non-negative distance; no other negative value is possible, so
the sentinel is distinguishable from every valid measurement. -/
theorem claim_C8_sentinel_or_nonneg (echo : Nat → Bool) :
    readSR04 echo = INVALID ∨ 0 ≤ readSR04 echo := by
  rcases hd : echoDuration echo with _ | d
  · exact Or.inl (readSR04_of_none echo hd)
  · rw [readSR04_of_some echo d hd]
    exact Or.inr (by positivity)

/-- **C10.**  Every successful return value of `readSR04` is bounded above
by `30001 / 58` (≈ 517.3 cm): the echo-high busy-wait exits, successfully
or by timeout, no later than the first poll past the 30 ms deadline, so the
measured duration never exceeds 30001 µs.  Hence every return value lies in
`{-1.0} ∪ [0, 30001/58]`. -/
theorem claim_C10_range (echo : Nat → Bool) :
    readSR04 echo = INVALID ∨
      (0 ≤ readSR04 echo ∧ readSR04 echo ≤ (30001 : ℚ) / 58) := by
  rcases hd : echoDuration echo with _ | d
  · exact Or.inl (readSR04_of_none echo hd)
  · rw [readSR04_of_some echo d hd]
    refine Or.inr ⟨by positivity, ?_⟩
    have hle : d ≤ 30001 := echoDuration_le echo d hd
    have hcast : (d : ℚ) ≤ 30001 := by exact_mod_cast hle
    gcongr

/-! ### Wire serialisation (`sendUDPPacket`, main.cpp lines 164-182)

`snprintf(buffer, 64, "D1:%.1f,D2:%.1f\n", dist1, dist2)` renders each
distance to the nearest tenth with exactly one digit after the decimal
point, and truncates the whole line to the 63 characters that fit in the
64-byte buffer.  `%.1f` rounding is modelled as round-half-up to the
nearest tenth (the tie-breaking rule is immaterial to every claim). -/

/-- Decimal digit string of a natural number, most significant first
(`fuel`-based so that it reduces in the kernel; `n + 1` digits always
suffice). -/
def natDigitsAux : Nat → Nat → List Char
  | 0, _ => []
  | fuel + 1, n =>
    if n < 10 then [Nat.digitChar n]
    else natDigitsAux fuel (n / 10) ++ [Nat.digitChar (n % 10)]

def natDigits (n : Nat) : List Char := natDigitsAux (n + 1) n

/-- The `%.1f` value scaled to integer tenths: the nearest integer to
`q * 10`. -/
def round10 (q : ℚ) : ℤ := ⌊q * 10 + 1 / 2⌋

/-- Rounding to one decimal place, as performed by serialisation. -/
def round1 (q : ℚ) : ℚ := (round10 q : ℚ) / 10

/-- The characters `%.1f` produces for `q`. -/
def fmt1 (q : ℚ) : List Char :=
  (if round10 q < 0 then ['-'] else []) ++
    natDigits ((round10 q).natAbs / 10) ++
    ['.', Nat.digitChar ((round10 q).natAbs % 10)]

/-- The untruncated line `"D1:%.1f,D2:%.1f\n"`. -/
def frameChars (dist1 dist2 : ℚ) : List Char :=
  ['D', '1', ':'] ++ fmt1 dist1 ++ [','] ++ ['D', '2', ':'] ++ fmt1 dist2 ++ ['\n']

/-- The datagram payload built by `sendUDPPacket`: the formatted line,
truncated to the 63 characters that fit in `char buffer[64]`. -/
def serialize (dist1 dist2 : ℚ) : String :=
  String.mk (List.take 63 (frameChars dist1 dist2))

/-- `sendUDPPacket(dist1, dist2)` (main.cpp lines 164-182): returns the
emitted datagram, or `none` when the link manager reports the link down
(`if (!eth_connected) return;`). -/
def sendUDPPacket (eth_connected : Bool) (dist1 dist2 : ℚ) : Option String :=
  if ¬ eth_connected then none
  else some (serialize dist1 dist2)

/-! #### Digit-string lemmas -/

theorem natDigitsAux_congr :
    ∀ n f g, n < f → n < g → natDigitsAux f n = natDigitsAux g n := by
  intro n
  induction n using Nat.strong_induction_on with
  | _ n ih =>
    intro f g hf hg
    match f, g with
    | f + 1, g + 1 =>
      simp only [natDigitsAux]
      by_cases h : n < 10
      · simp [h]
      · rw [if_neg h, if_neg h]
        have hdiv : n / 10 < n := Nat.div_lt_self (by omega) (by norm_num)
        rw [ih (n / 10) hdiv f g (by omega) (by omega)]

theorem natDigits_eq (n : Nat) :
    natDigits n = if n < 10 then [Nat.digitChar n]
      else natDigits (n / 10) ++ [Nat.digitChar (n % 10)] := by
  by_cases h : n < 10
  · rw [if_pos h]
    unfold natDigits
    simp [natDigitsAux, h]
  · rw [if_neg h]
    have hdiv : n / 10 < n := Nat.div_lt_self (by omega) (by norm_num)
    have h1 : natDigits n = natDigitsAux n (n / 10) ++ [Nat.digitChar (n % 10)] := by
      show natDigitsAux (n + 1) n = _
      simp only [natDigitsAux, h, if_false]
    rw [h1, natDigitsAux_congr (n / 10) n (n / 10 + 1) hdiv (by omega)]
    rfl

theorem natDigits_ne_nil (n : Nat) : natDigits n ≠ [] := by
  rw [natDigits_eq]
  by_cases h : n < 10 <;> simp [h]

theorem digitChar_isDigit : ∀ k, k < 10 → (Nat.digitChar k).isDigit = true := by
  decide

theorem natDigits_isDigit (n : Nat) : ∀ c ∈ natDigits n, c.isDigit = true := by
  induction n using Nat.strong_induction_on with
  | _ n ih =>
    rw [natDigits_eq]
    by_cases h : n < 10
    · rw [if_pos h]
      intro c hc
      rw [List.mem_singleton] at hc
      subst hc
      exact digitChar_isDigit n h
    · rw [if_neg h]
      intro c hc
      rw [List.mem_append, List.mem_singleton] at hc
      rcases hc with hc | hc
      · exact ih (n / 10) (Nat.div_lt_self (by omega) (by norm_num)) c hc
      · subst hc
        exact digitChar_isDigit (n % 10) (Nat.mod_lt _ (by norm_num))

theorem natDigits_length_le :
    ∀ k n, 1 ≤ k → n < 10 ^ k → (natDigits n).length ≤ k := by
  intro k
  induction k with
  | zero => intro n h; omega
  | succ k ih =>
    intro n _ hn
    rw [natDigits_eq]
    by_cases h : n < 10
    · simp [h]
    · rw [if_neg h]
      rw [List.length_append, List.length_singleton]
      have hk : 1 ≤ k := by
        by_contra hk
        have : k = 0 := by omega
        subst this
        simp at hn
        omega
      have hdiv : n / 10 < 10 ^ k := by
        rw [Nat.div_lt_iff_lt_mul (by norm_num)]
        calc n < 10 ^ (k + 1) := hn
        _ = 10 ^ k * 10 := by ring
      have := ih (n / 10) hk hdiv
      omega

theorem natDigits_pow10 (k : Nat) :
    natDigits (10 ^ k) = '1' :: List.replicate k '0' := by
  induction k with
  | zero => decide
  | succ k ih =>
    rw [natDigits_eq]
    have h10 : (10 : Nat) ≤ 10 ^ (k + 1) := by
      calc (10 : Nat) = 10 ^ 1 := by norm_num
      _ ≤ 10 ^ (k + 1) := Nat.pow_le_pow_right (by norm_num) (by omega)
    rw [if_neg (by omega)]
    have hdiv : 10 ^ (k + 1) / 10 = 10 ^ k := by
      rw [pow_succ]
      exact Nat.mul_div_cancel _ (by norm_num)
    have hmod : 10 ^ (k + 1) % 10 = 0 := by
      rw [pow_succ]
      exact Nat.mul_mod_left _ _
    rw [hdiv, hmod, ih]
    show ('1' :: List.replicate k '0') ++ ['0'] = '1' :: List.replicate (k + 1) '0'
    rw [List.cons_append, List.replicate_succ']

/-! ### Receiver-side parser

Modelled from the spec: the monitor node's Telemetry Receiver parses the
line protocol `D1:<v1>,D2:<v2>\n` (spec section 6 grammar, section 4.5
receiver contract); the Pi-side source (`raspberrypi/app.py`) is not part
of the repository.  A value is an optional minus sign, decimal integer
digits, a point, and exactly one fractional digit; any malformed datagram
parses to `none`. -/

def charDigit? (c : Char) : Option Nat :=
  if c.isDigit then some (c.toNat - 48) else none

def parseNatFrom : Nat → List Char → Option Nat
  | acc, [] => some acc
  | acc, c :: rest =>
    match charDigit? c with
    | some d => parseNatFrom (acc * 10 + d) rest
    | none => none

def parseNat (cs : List Char) : Option Nat :=
  if cs = [] then none else parseNatFrom 0 cs

/-- Split at the first occurrence of `c`, dropping it. -/
def splitFirst (c : Char) : List Char → Option (List Char × List Char)
  | [] => none
  | x :: xs =>
    if x = c then some ([], xs)
    else (splitFirst c xs).map fun p => (x :: p.1, p.2)

/-- Remove an expected literal from the front. -/
def stripPre : List Char → List Char → Option (List Char)
  | [], cs => some cs
  | _ :: _, [] => none
  | p :: ps, c :: cs => if c = p then stripPre ps cs else none

def parseValAbs (cs : List Char) : Option ℚ :=
  match splitFirst '.' cs with
  | none => none
  | some (ip, fcs) =>
    match fcs with
    | [fc] =>
      match parseNat ip, charDigit? fc with
      | some i, some f => some ((i : ℚ) + (f : ℚ) / 10)
      | _, _ => none
    | _ => none

def parseVal (cs : List Char) : Option ℚ :=
  match cs with
  | [] => none
  | c :: rest =>
    if c = '-' then (parseValAbs rest).map fun q => -q
    else parseValAbs (c :: rest)

def parseLine (cs : List Char) : Option (ℚ × ℚ) :=
  match stripPre ['D', '1', ':'] cs with
  | none => none
  | some r1 =>
    match splitFirst ',' r1 with
    | none => none
    | some (v1, r2) =>
      match stripPre ['D', '2', ':'] r2 with
      | none => none
      | some r3 =>
        match splitFirst '\n' r3 with
        | some (v2, []) =>
          match parseVal v1, parseVal v2 with
          | some a, some b => some (a, b)
          | _, _ => none
        | _ => none

def parse (s : String) : Option (ℚ × ℚ) := parseLine s.data

/-! #### Parser round-trip lemmas -/

theorem charDigit?_digitChar : ∀ k, k < 10 → charDigit? (Nat.digitChar k) = some k := by
  decide

theorem parseNatFrom_append (xs ys : List Char) :
    ∀ acc, parseNatFrom acc (xs ++ ys) =
      (parseNatFrom acc xs).bind fun m => parseNatFrom m ys := by
  induction xs with
  | nil => intro acc; simp [parseNatFrom]
  | cons c rest ih =>
    intro acc
    simp only [List.cons_append, parseNatFrom]
    cases hc : charDigit? c with
    | none => simp
    | some d => simp [ih]

theorem parseNatFrom_natDigits (n : Nat) :
    ∀ acc, parseNatFrom acc (natDigits n) =
      some (acc * 10 ^ (natDigits n).length + n) := by
  induction n using Nat.strong_induction_on with
  | _ n ih =>
    intro acc
    rw [natDigits_eq]
    by_cases h : n < 10
    · rw [if_pos h]
      simp only [List.length_singleton, pow_one]
      show parseNatFrom acc [Nat.digitChar n] = some (acc * 10 + n)
      simp [parseNatFrom, charDigit?_digitChar n h]
    · rw [if_neg h]
      have hdiv : n / 10 < n := Nat.div_lt_self (by omega) (by norm_num)
      rw [parseNatFrom_append, ih (n / 10) hdiv acc]
      have hm : n % 10 < 10 := Nat.mod_lt _ (by norm_num)
      simp only [Option.some_bind, parseNatFrom, charDigit?_digitChar (n % 10) hm,
        List.length_append, List.length_singleton]
      congr 1
      rw [pow_succ, ← mul_assoc]
      generalize acc * 10 ^ (natDigits (n / 10)).length = A
      omega

theorem parseNat_natDigits (n : Nat) : parseNat (natDigits n) = some n := by
  unfold parseNat
  rw [if_neg (natDigits_ne_nil n)]
  simpa using parseNatFrom_natDigits n 0

theorem splitFirst_append (c : Char) (xs ys : List Char) (h : c ∉ xs) :
    splitFirst c (xs ++ c :: ys) = some (xs, ys) := by
  induction xs with
  | nil => simp [splitFirst]
  | cons x rest ih =>
    simp only [List.cons_append, splitFirst, List.append_eq]
    have hx : ¬ x = c := fun hh => h (hh ▸ List.mem_cons_self x rest)
    rw [if_neg hx, ih fun hm => h (List.mem_cons_of_mem x hm)]
    rfl

theorem splitFirst_eq_none (c : Char) (xs : List Char) (h : c ∉ xs) :
    splitFirst c xs = none := by
  induction xs with
  | nil => rfl
  | cons x rest ih =>
    simp only [splitFirst]
    have hx : ¬ x = c := fun hh => h (hh ▸ List.mem_cons_self x rest)
    rw [if_neg hx, ih fun hm => h (List.mem_cons_of_mem x hm)]
    rfl

theorem stripPre_append (p rest : List Char) : stripPre p (p ++ rest) = some rest := by
  induction p with
  | nil => rfl
  | cons c ps ih => simp [stripPre, ih]

theorem fmt1_chars (q : ℚ) :
    ∀ c ∈ fmt1 q, c.isDigit = true ∨ c = '-' ∨ c = '.' := by
  intro c hc
  unfold fmt1 at hc
  rw [List.mem_append, List.mem_append] at hc
  rcases hc with (hc | hc) | hc
  · by_cases h : round10 q < 0
    · rw [if_pos h, List.mem_singleton] at hc
      exact Or.inr (Or.inl hc)
    · rw [if_neg h] at hc
      exact absurd hc (List.not_mem_nil c)
  · exact Or.inl (natDigits_isDigit _ c hc)
  · rw [List.mem_cons, List.mem_singleton] at hc
    rcases hc with hc | hc
    · exact Or.inr (Or.inr hc)
    · subst hc
      exact Or.inl (digitChar_isDigit _ (Nat.mod_lt _ (by norm_num)))

theorem comma_not_mem_fmt1 (q : ℚ) : ',' ∉ fmt1 q := by
  intro h
  rcases fmt1_chars q ',' h with h | h | h <;> simp_all

theorem newline_not_mem_fmt1 (q : ℚ) : '\n' ∉ fmt1 q := by
  intro h
  rcases fmt1_chars q '\n' h with h | h | h <;> simp_all

theorem parseValAbs_digits (m : Nat) :
    parseValAbs (natDigits (m / 10) ++ ['.', Nat.digitChar (m % 10)]) =
      some ((m : ℚ) / 10) := by
  have hdot : '.' ∉ natDigits (m / 10) :=
    fun h => absurd (natDigits_isDigit _ '.' h) (by decide)
  have hsplit : splitFirst '.' (natDigits (m / 10) ++ '.' :: [Nat.digitChar (m % 10)]) =
      some (natDigits (m / 10), [Nat.digitChar (m % 10)]) :=
    splitFirst_append '.' _ _ hdot
  have hm : m % 10 < 10 := Nat.mod_lt _ (by norm_num)
  unfold parseValAbs
  rw [hsplit]
  simp only [parseNat_natDigits, charDigit?_digitChar (m % 10) hm]
  congr 1
  have hdm : (10 : ℚ) * ((m / 10 : Nat) : ℚ) + ((m % 10 : Nat) : ℚ) = (m : ℚ) := by
    exact_mod_cast Nat.div_add_mod m 10
  field_simp
  linarith

theorem parseVal_fmt1 (q : ℚ) : parseVal (fmt1 q) = some (round1 q) := by
  by_cases h : round10 q < 0
  · have hfmt : fmt1 q = '-' :: (natDigits ((round10 q).natAbs / 10) ++
        ['.', Nat.digitChar ((round10 q).natAbs % 10)]) := by
      unfold fmt1
      rw [if_pos h]
      rfl
    rw [hfmt]
    simp only [parseVal, if_true]
    rw [parseValAbs_digits ((round10 q).natAbs)]
    simp only [Option.map_some']
    have h2 : (((round10 q).natAbs : Nat) : ℚ) = -((round10 q : ℤ) : ℚ) := by
      rw [Int.cast_natAbs, abs_of_neg (by exact_mod_cast h)]
      exact Int.cast_neg _
    rw [round1, h2]
    congr 1
    ring
  · have hfmt : fmt1 q = natDigits ((round10 q).natAbs / 10) ++
        ['.', Nat.digitChar ((round10 q).natAbs % 10)] := by
      unfold fmt1
      rw [if_neg h]
      rfl
    rcases hd : natDigits ((round10 q).natAbs / 10) with _ | ⟨c, rest⟩
    · exact absurd hd (natDigits_ne_nil _)
    · have hcdig : c.isDigit = true :=
        natDigits_isDigit _ c (by rw [hd]; exact List.mem_cons_self c rest)
      have hcm : ¬ c = '-' := by
        intro hh
        rw [hh] at hcdig
        exact absurd hcdig (by decide)
      rw [hfmt, hd, List.cons_append]
      simp only [parseVal]
      rw [if_neg hcm, ← List.cons_append, ← hd,
        parseValAbs_digits ((round10 q).natAbs)]
      have h2 : (((round10 q).natAbs : Nat) : ℚ) = ((round10 q : ℤ) : ℚ) := by
        rw [Int.cast_natAbs, abs_of_nonneg (by exact_mod_cast not_lt.mp h)]
      rw [round1, h2]

theorem parseLine_frameChars (a b : ℚ) :
    parseLine (frameChars a b) = some (round1 a, round1 b) := by
  have h1 : stripPre ['D', '1', ':'] (frameChars a b) =
      some (fmt1 a ++ ',' :: (['D', '2', ':'] ++ (fmt1 b ++ ['\n']))) := by
    unfold frameChars
    simp only [List.append_assoc, List.singleton_append]
    exact stripPre_append _ _
  have h2 : splitFirst ',' (fmt1 a ++ ',' :: (['D', '2', ':'] ++ (fmt1 b ++ ['\n']))) =
      some (fmt1 a, ['D', '2', ':'] ++ (fmt1 b ++ ['\n'])) :=
    splitFirst_append ',' _ _ (comma_not_mem_fmt1 a)
  have h4 : splitFirst '\n' (fmt1 b ++ ['\n']) = some (fmt1 b, []) :=
    splitFirst_append '\n' (fmt1 b) [] (newline_not_mem_fmt1 b)
  simp only [parseLine, h1, h2, stripPre_append, h4, parseVal_fmt1]

/-! #### Length bounds: the formatted line always fits the 64-byte buffer
for the values the firmware can produce -/

theorem round10_le (q : ℚ) (h : q ≤ 30001 / 58) : round10 q ≤ 5173 := by
  unfold round10
  rw [Int.floor_le_iff]
  push_cast
  linarith

theorem round10_ge (q : ℚ) (h : -1 ≤ q) : -10 ≤ round10 q := by
  unfold round10
  rw [Int.le_floor]
  push_cast
  linarith

theorem fmt1_length_le (q : ℚ) (h1 : -1 ≤ q) (h2 : q ≤ 30001 / 58) :
    (fmt1 q).length ≤ 6 := by
  have hub := round10_le q h2
  have hlb := round10_ge q h1
  have hd : (round10 q).natAbs / 10 < 10 ^ 3 := by omega
  have hlen := natDigits_length_le 3 ((round10 q).natAbs / 10) (by norm_num) hd
  unfold fmt1
  rw [List.length_append, List.length_append]
  have hsign : (if round10 q < 0 then ['-'] else ([] : List Char)).length ≤ 1 := by
    by_cases h : round10 q < 0 <;> simp [h]
  simp only [List.length_cons, List.length_singleton, List.length_nil] at *
  omega

theorem frameChars_take (a b : ℚ) (ha1 : -1 ≤ a) (ha2 : a ≤ 30001 / 58)
    (hb1 : -1 ≤ b) (hb2 : b ≤ 30001 / 58) :
    List.take 63 (frameChars a b) = frameChars a b := by
  have hha := fmt1_length_le a ha1 ha2
  have hhb := fmt1_length_le b hb1 hb2
  apply List.take_of_length_le
  unfold frameChars
  simp only [List.length_append, List.length_cons, List.length_singleton,
    List.length_nil]
  omega

/-! ### Claims about serialisation -/

/-- The distance values the sampling loop can hand to the transmitter: the
sentinel `-1.0`, or a non-negative driver reading (at most `30001/58`, by
`claim_C10_range`); the single-sensor filler `0.0` is included. -/
def inDriverRange (q : ℚ) : Prop := q = INVALID ∨ (0 ≤ q ∧ q ≤ 30001 / 58)

theorem inDriverRange_bounds (q : ℚ) (h : inDriverRange q) :
    -1 ≤ q ∧ q ≤ 30001 / 58 := by
  rcases h with h | ⟨h1, h2⟩
  · rw [h, INVALID_eq]
    norm_num
  · exact ⟨by linarith, h2⟩

theorem readSR04_range (echo : Nat → Bool) : inDriverRange (readSR04 echo) := by
  rcases hd : echoDuration echo with _ | d
  · exact Or.inl (readSR04_of_none echo hd)
  · rw [readSR04_of_some echo d hd]
    refine Or.inr ⟨by positivity, ?_⟩
    have hle : d ≤ 30001 := echoDuration_le echo d hd
    have hcast : (d : ℚ) ≤ 30001 := by exact_mod_cast hle
    gcongr

theorem serialize_data_eq (d1 d2 : ℚ)
    (h1 : inDriverRange d1) (h2 : inDriverRange d2) :
    (serialize d1 d2).data =
      ['D', '1', ':'] ++ fmt1 d1 ++ [','] ++ ['D', '2', ':'] ++ fmt1 d2 ++ ['\n'] := by
  obtain ⟨ha1, ha2⟩ := inDriverRange_bounds d1 h1
  obtain ⟨hb1, hb2⟩ := inDriverRange_bounds d2 h2
  show List.take 63 (frameChars d1 d2) = _
  rw [frameChars_take d1 d2 ha1 ha2 hb1 hb2]
  rfl

theorem round10_intCast_div (n : ℤ) : round10 ((n : ℚ) / 10) = n := by
  unfold round10
  rw [div_mul_cancel₀ _ (by norm_num : (10 : ℚ) ≠ 0), add_comm, Int.floor_add_int]
  norm_num

theorem round10_INVALID : round10 INVALID = -10 := by
  rw [INVALID_eq, show (-1 : ℚ) = ((-10 : ℤ) : ℚ) / 10 by norm_num]
  exact round10_intCast_div (-10)

theorem fmt1_INVALID : fmt1 INVALID = ['-', '1', '.', '0'] := by
  unfold fmt1
  rw [round10_INVALID]
  decide

theorem round10_zero : round10 0 = 0 := by
  rw [show (0 : ℚ) = ((0 : ℤ) : ℚ) / 10 by norm_num]
  exact round10_intCast_div 0

theorem fmt1_zero : fmt1 0 = ['0', '.', '0'] := by
  unfold fmt1
  rw [round10_zero]
  decide

/-- **C3.**  For every pair of distance values the sampling loop can hand to
the transmitter, the serialised frame is exactly the single ASCII line
`D1:<v1>,D2:<v2>` terminated by a newline (the newline is the only one and
is final); each value is rendered with exactly one digit after the sole
decimal point; and the invalid reading renders as `-1.0`. -/
theorem claim_C3_frame_format (d1 d2 : ℚ)
    (h1 : inDriverRange d1) (h2 : inDriverRange d2) :
    (serialize d1 d2).data =
      ['D', '1', ':'] ++ fmt1 d1 ++ [','] ++ ['D', '2', ':'] ++ fmt1 d2 ++ ['\n'] ∧
    (∀ q : ℚ, ∃ pre k, k < 10 ∧ fmt1 q = pre ++ ['.', Nat.digitChar k] ∧ '.' ∉ pre) ∧
    fmt1 INVALID = ['-', '1', '.', '0'] ∧
    '\n' ∉ ['D', '1', ':'] ++ fmt1 d1 ++ [','] ++ ['D', '2', ':'] ++ fmt1 d2 := by
  obtain ⟨ha1, ha2⟩ := inDriverRange_bounds d1 h1
  obtain ⟨hb1, hb2⟩ := inDriverRange_bounds d2 h2
  refine ⟨serialize_data_eq d1 d2 h1 h2, ?_, ?_, ?_⟩
  · intro q
    refine ⟨(if round10 q < 0 then ['-'] else []) ++
      natDigits ((round10 q).natAbs / 10), (round10 q).natAbs % 10,
      Nat.mod_lt _ (by norm_num), ?_, ?_⟩
    · unfold fmt1
      rw [List.append_assoc]
    · intro hmem
      rw [List.mem_append] at hmem
      rcases hmem with hmem | hmem
      · by_cases h : round10 q < 0
        · rw [if_pos h, List.mem_singleton] at hmem
          exact absurd hmem (by decide)
        · rw [if_neg h] at hmem
          exact absurd hmem (List.not_mem_nil _)
      · exact absurd (natDigits_isDigit _ '.' hmem) (by decide)
  · exact fmt1_INVALID
  · intro hmem
    simp only [List.mem_append, List.mem_cons, List.mem_singleton,
      List.not_mem_nil] at hmem
    rcases hmem with ((((h | h | h | h) | h) | h) | h | h | h | h) | h
    all_goals first
      | exact absurd h (by decide)
      | exact absurd (fmt1_chars _ _ h) (by decide)

theorem claim_C3_frame_format_witness :
    (serialize INVALID 0).data =
      ['D', '1', ':'] ++ fmt1 INVALID ++ [','] ++ ['D', '2', ':'] ++ fmt1 0 ++ ['\n'] ∧
    (∀ q : ℚ, ∃ pre k, k < 10 ∧ fmt1 q = pre ++ ['.', Nat.digitChar k] ∧ '.' ∉ pre) ∧
    fmt1 INVALID = ['-', '1', '.', '0'] ∧
    '\n' ∉ ['D', '1', ':'] ++ fmt1 INVALID ++ [','] ++ ['D', '2', ':'] ++ fmt1 0 :=
  claim_C3_frame_format INVALID 0 (Or.inl rfl) (Or.inr ⟨le_rfl, by norm_num⟩)

/-! #### Round-trip and idempotence -/

theorem round10_round1 (q : ℚ) : round10 (round1 q) = round10 q := by
  unfold round1
  exact round10_intCast_div _

theorem fmt1_round1 (q : ℚ) : fmt1 (round1 q) = fmt1 q := by
  unfold fmt1
  rw [round10_round1]

theorem serialize_round1 (a b : ℚ) :
    serialize (round1 a) (round1 b) = serialize a b := by
  have h : frameChars (round1 a) (round1 b) = frameChars a b := by
    unfold frameChars
    rw [fmt1_round1, fmt1_round1]
  unfold serialize
  rw [h]

/-- **C6 (amended).**  The claimed round-trip holds for values whose
serialised line fits the 63-character datagram buffer — in particular for
everything the driver can produce: for `a`, `b` each either `INVALID` or a
non-negative value at most `30001/58` cm, parsing the serialised line gives
`(round1 a, round1 b)`, and re-serialising the rounded values reproduces
the identical line. -/
theorem claim_C6_roundtrip_amended (a b : ℚ)
    (ha : inDriverRange a) (hb : inDriverRange b) :
    parse (serialize a b) = some (round1 a, round1 b) ∧
      serialize (round1 a) (round1 b) = serialize a b := by
  obtain ⟨ha1, ha2⟩ := inDriverRange_bounds a ha
  obtain ⟨hb1, hb2⟩ := inDriverRange_bounds b hb
  constructor
  · show parseLine (List.take 63 (frameChars a b)) = _
    rw [frameChars_take a b ha1 ha2 hb1 hb2]
    exact parseLine_frameChars a b
  · exact serialize_round1 a b

theorem claim_C6_roundtrip_amended_witness :
    parse (serialize INVALID (453 / 10)) =
        some (round1 INVALID, round1 (453 / 10)) ∧
      serialize (round1 INVALID) (round1 (453 / 10)) =
        serialize INVALID (453 / 10) :=
  claim_C6_roundtrip_amended INVALID (453 / 10) (Or.inl rfl)
    (Or.inr ⟨by norm_num, by norm_num⟩)

/-! #### The round-trip fails for values whose line overflows the buffer -/

theorem round10_pow38 : round10 ((10 : ℚ) ^ 38) = 10 ^ 39 := by
  rw [show ((10 : ℚ) ^ 38) = (((10 : ℤ) ^ 39 : ℤ) : ℚ) / 10 by
    push_cast
    rw [pow_succ]
    field_simp
    norm_num]
  exact round10_intCast_div _

theorem natAbs_pow39 : ((10 : ℤ) ^ 39).natAbs = 10 ^ 39 := by
  rw [show (10 : ℤ) ^ 39 = ((10 ^ 39 : ℕ) : ℤ) by norm_num]
  exact Int.natAbs_ofNat _

theorem fmt1_pow38 :
    fmt1 ((10 : ℚ) ^ 38) = ('1' :: List.replicate 38 '0') ++ ['.', '0'] := by
  unfold fmt1
  rw [round10_pow38, natAbs_pow39]
  have hdiv : (10 ^ 39 : ℕ) / 10 = 10 ^ 38 := by
    rw [pow_succ]
    exact Nat.mul_div_cancel _ (by norm_num)
  have hmod : (10 ^ 39 : ℕ) % 10 = 0 := by
    rw [pow_succ]
    exact Nat.mul_mod_left _ _
  have hneg : ¬ ((10 : ℤ) ^ 39) < 0 := not_lt.mpr (by positivity)
  rw [hdiv, hmod, natDigits_pow10, if_neg hneg]
  rfl

theorem fmt1_pow38_length : (fmt1 ((10 : ℚ) ^ 38)).length = 41 := by
  rw [fmt1_pow38]
  simp

theorem serialize_pow38 :
    (serialize ((10 : ℚ) ^ 38) ((10 : ℚ) ^ 38)).data =
      (['D', '1', ':'] ++ fmt1 ((10 : ℚ) ^ 38) ++ [','] ++ ['D', '2', ':']) ++
        ('1' :: List.replicate 14 '0') := by
  show List.take 63 (frameChars ((10 : ℚ) ^ 38) ((10 : ℚ) ^ 38)) = _
  unfold frameChars
  rw [List.append_assoc (['D', '1', ':'] ++ fmt1 ((10 : ℚ) ^ 38) ++ [','] ++
    ['D', '2', ':']) (fmt1 ((10 : ℚ) ^ 38)) ['\n']]
  rw [List.take_append_eq_append_take]
  have hP : (['D', '1', ':'] ++ fmt1 ((10 : ℚ) ^ 38) ++ [','] ++
      ['D', '2', ':']).length = 48 := by
    simp [fmt1_pow38_length]
  rw [List.take_of_length_le (by rw [hP]; norm_num), hP]
  congr 1
  rw [List.take_append_eq_append_take, fmt1_pow38_length,
    show (15 - 41 : ℕ) = 0 from rfl, List.take_zero, List.append_nil]
  rw [fmt1_pow38, List.cons_append, List.take_succ_cons,
    List.take_append_eq_append_take, List.take_replicate]
  simp

theorem parse_pow38 : parse (serialize ((10 : ℚ) ^ 38) ((10 : ℚ) ^ 38)) = none := by
  unfold parse
  rw [serialize_pow38]
  simp only [List.append_assoc, List.singleton_append]
  have h2 : splitFirst ','
      (fmt1 ((10 : ℚ) ^ 38) ++
        ([',', 'D', '2', ':'] ++ ('1' :: List.replicate 14 '0'))) =
      some (fmt1 ((10 : ℚ) ^ 38), ['D', '2', ':'] ++ ('1' :: List.replicate 14 '0')) :=
    splitFirst_append ',' _ _ (comma_not_mem_fmt1 _)
  have h4 : splitFirst '\n' ('1' :: List.replicate 14 '0') = none :=
    splitFirst_eq_none _ _ (by decide)
  simp only [parseLine, stripPre_append, h2, h4]

/-- **C6 (counterexample).**  The claim quantifies over every non-negative
value, but `sendUDPPacket` truncates the line to its 64-byte buffer: at
`a = b = 10^38` (inside 32-bit float range) the line is 90 characters, the
datagram is cut at 63, and parsing fails instead of returning the rounded
pair. -/
theorem claim_C6_counterexample :
    ¬ (parse (serialize ((10 : ℚ) ^ 38) ((10 : ℚ) ^ 38)) =
        some (round1 ((10 : ℚ) ^ 38), round1 ((10 : ℚ) ^ 38))) := by
  rw [parse_pow38]
  simp

/-! ### The sampling loop (`loop`, main.cpp lines 254-297) -/

/-- Sensor environment for one sampling tick: each channel's echo trace. -/
structure Env where
  echo1 : Nat → Bool
  echo2 : Nat → Bool

/-- The channel-2 value `loop` assembles (main.cpp lines 264-268): the
second reading when two sensors are configured, else the fixed filler
`0.0`. -/
def secondSlot (numSensors : Nat) (e : Env) : ℚ :=
  if numSensors = 2 then readSR04 e.echo2 else 0

theorem secondSlot_range (numSensors : Nat) (e : Env) :
    inDriverRange (secondSlot numSensors e) := by
  unfold secondSlot
  by_cases h : numSensors = 2
  · rw [if_pos h]
    exact readSR04_range e.echo2
  · rw [if_neg h]
    exact Or.inr ⟨le_rfl, by norm_num⟩

/-- The ordered log of `readSR04` calls one tick performs, as
`(channel, result)` pairs, mirroring the statement order of `loop`:
channel 1 first, then channel 2 exactly when two sensors are
configured. -/
def tickMeasurements (numSensors : Nat) (e : Env) : List (Nat × ℚ) :=
  (1, readSR04 e.echo1) ::
    (if numSensors = 2 then [(2, readSR04 e.echo2)] else [])

/-- The firmware globals `loop` touches (main.cpp lines 69-74), plus the
log of datagrams emitted through `udp.writeTo`. -/
structure NodeState where
  last_measurement_time : Nat
  distance_1_cm : ℚ
  distance_2_cm : ℚ
  eth_connected : Bool
  sent : List String

/-- One pass of `loop()` at `millis() = current_time`: when the 100 ms
interval has elapsed, measure channel 1, then channel 2 (or store the
filler), and hand the frame to `sendUDPPacket`, which emits it only while
the link is up. -/
def loopBody (numSensors : Nat) (e : Env) (current_time : Nat)
    (s : NodeState) : NodeState :=
  if measurement_interval_ms ≤ current_time - s.last_measurement_time then
    let d1 := readSR04 e.echo1
    let d2 := if numSensors = 2 then readSR04 e.echo2 else 0
    let s1 : NodeState :=
      { s with last_measurement_time := current_time,
               distance_1_cm := d1, distance_2_cm := d2 }
    if s1.eth_connected then
      match sendUDPPacket s1.eth_connected d1 d2 with
      | some pkt => { s1 with sent := s1.sent ++ [pkt] }
      | none => s1
    else s1
  else s

/-- **C4.**  Every transmitted frame has exactly the two channel slots, `D1`
then `D2`, regardless of the configured sensor count; when only one sensor
is configured the second slot is emitted as the fixed filler `0.0`, not
omitted. -/
theorem claim_C4_fixed_arity (numSensors : Nat) (e : Env) :
    (serialize (readSR04 e.echo1) (secondSlot numSensors e)).data =
      ['D', '1', ':'] ++ fmt1 (readSR04 e.echo1) ++ [','] ++ ['D', '2', ':'] ++
        fmt1 (secondSlot numSensors e) ++ ['\n'] ∧
    (numSensors = 1 → fmt1 (secondSlot numSensors e) = ['0', '.', '0']) := by
  refine ⟨serialize_data_eq _ _ (readSR04_range e.echo1)
    (secondSlot_range numSensors e), ?_⟩
  intro h
  subst h
  rw [show secondSlot 1 e = 0 by unfold secondSlot; norm_num]
  exact fmt1_zero

/-- A quiescent environment (no echo ever) for witnesses. -/
def exEnv : Env := ⟨fun _ => false, fun _ => false⟩

theorem claim_C4_fixed_arity_witness :
    (serialize (readSR04 exEnv.echo1) (secondSlot 1 exEnv)).data =
      ['D', '1', ':'] ++ fmt1 (readSR04 exEnv.echo1) ++ [','] ++ ['D', '2', ':'] ++
        fmt1 (secondSlot 1 exEnv) ++ ['\n'] ∧
    (1 = 1 → fmt1 (secondSlot 1 exEnv) = ['0', '.', '0']) :=
  claim_C4_fixed_arity 1 exEnv

/-- **C5.**  While the link manager reports the link down, the send
operation emits no datagram and the loop's datagram log is unchanged: the
frame is silently dropped, not queued (the model is a total function — no
throw — and nothing is retained for later transmission). -/
theorem claim_C5_silent_drop (d1 d2 : ℚ) (numSensors : Nat) (e : Env)
    (current_time : Nat) (s : NodeState) (h : s.eth_connected = false) :
    sendUDPPacket false d1 d2 = none ∧
      (loopBody numSensors e current_time s).sent = s.sent := by
  refine ⟨rfl, ?_⟩
  unfold loopBody
  by_cases ht : measurement_interval_ms ≤ current_time - s.last_measurement_time
  · rw [if_pos ht]
    simp [h]
  · rw [if_neg ht]

/-- Concrete link-down state for the `claim_C5_silent_drop` witness. -/
def exStateDown : NodeState := ⟨0, 0, 0, false, []⟩

theorem claim_C5_silent_drop_witness :
    sendUDPPacket false INVALID 0 = none ∧
      (loopBody 2 exEnv 1000 exStateDown).sent = exStateDown.sent :=
  claim_C5_silent_drop INVALID 0 2 exEnv 1000 exStateDown rfl

/-- **C7.**  On every due tick, channel 1 is measured first and, when a
second channel is configured, channel 2 immediately after, strictly
sequentially: the call log is exactly `[(1, _), (2, _)]` (each channel
exactly once, so an `INVALID` reading is never retried within the cycle),
and the frame handed to the transmitter carries the measured values
unchanged — including the sentinel. -/
theorem claim_C7_sequential_tick (numSensors : Nat) (e : Env)
    (current_time : Nat) (s : NodeState)
    (hdue : measurement_interval_ms ≤ current_time - s.last_measurement_time)
    (hup : s.eth_connected = true) :
    (List.map Prod.fst (tickMeasurements numSensors e) =
        if numSensors = 2 then [1, 2] else [1]) ∧
    (tickMeasurements numSensors e).head? = some (1, readSR04 e.echo1) ∧
    (loopBody numSensors e current_time s).distance_1_cm = readSR04 e.echo1 ∧
    (loopBody numSensors e current_time s).distance_2_cm =
      secondSlot numSensors e ∧
    (loopBody numSensors e current_time s).sent =
      s.sent ++ [serialize (readSR04 e.echo1) (secondSlot numSensors e)] := by
  refine ⟨?_, ?_, ?_, ?_, ?_⟩
  · by_cases h : numSensors = 2 <;> simp [tickMeasurements, h]
  · rfl
  all_goals
    unfold loopBody
    rw [if_pos hdue]
    simp [hup, sendUDPPacket, secondSlot, serialize]

/-- Concrete link-up state for the `claim_C7_sequential_tick` witness. -/
def exStateUp : NodeState := ⟨0, 0, 0, true, []⟩

theorem claim_C7_sequential_tick_witness :
    (List.map Prod.fst (tickMeasurements 2 exEnv) =
        if 2 = 2 then [1, 2] else [1]) ∧
    (tickMeasurements 2 exEnv).head? = some (1, readSR04 exEnv.echo1) ∧
    (loopBody 2 exEnv 1000 exStateUp).distance_1_cm = readSR04 exEnv.echo1 ∧
    (loopBody 2 exEnv 1000 exStateUp).distance_2_cm = secondSlot 2 exEnv ∧
    (loopBody 2 exEnv 1000 exStateUp).sent =
      exStateUp.sent ++ [serialize (readSR04 exEnv.echo1) (secondSlot 2 exEnv)] :=
  claim_C7_sequential_tick 2 exEnv 1000 exStateUp (by decide) rfl

/-! ### Alarm controller (monitor node)

Modelled from the spec: the Alarm Controller state machine of spec section
4.6 with the `AlarmState` of section 3 and the configuration surface of
section 6 (`distance_threshold_cm`, `min_interval_between_alerts_sec`,
`pause_duration_seconds`); the Pi-side source (`raspberrypi/app.py`) is
not part of the repository. -/

structure AlarmConfig where
  distance_threshold_cm : ℚ
  min_interval_between_alerts_sec : ℚ
  pause_duration_seconds : ℚ

structure AlarmState where
  paused_until : Option ℚ
  last_alert_at : Option ℚ

/-- Minimum of a list of distances (`none` on the empty list). -/
def minList : List ℚ → Option ℚ
  | [] => none
  | d :: rest =>
    match minList rest with
    | none => some d
    | some m => some (min d m)

/-- `min_distance`: the minimum over channel distances that are not
`INVALID`. -/
def minValid (frame : List ℚ) : Option ℚ :=
  minList (frame.filter fun d => decide (d ≠ INVALID))

/-- Whether the controller is in the Monitoring state at `now`
(Paused → Monitoring is evaluated lazily: monitoring iff not paused or the
pause window has elapsed). -/
def monitoring (now : ℚ) (st : AlarmState) : Bool :=
  match st.paused_until with
  | none => true
  | some p => decide (p ≤ now)

/-- The alert-rate-limit sub-condition: `now - last_alert_at ≥
min_interval_between_alerts_sec` (vacuously true before any alert). -/
def rateOk (cfg : AlarmConfig) (now : ℚ) (st : AlarmState) : Bool :=
  match st.last_alert_at with
  | none => true
  | some la => decide (cfg.min_interval_between_alerts_sec ≤ now - la)

/-- `evaluate(frame)`: the per-frame threshold evaluation.  Returns the new
state and whether the Audio Sink's play operation was invoked. -/
def evaluate (cfg : AlarmConfig) (now : ℚ) (frame : List ℚ)
    (st : AlarmState) : AlarmState × Bool :=
  if monitoring now st then
    match minValid frame with
    | none => (st, false)
    | some m =>
      if m < cfg.distance_threshold_cm ∧ rateOk cfg now st = true then
        ({ st with last_alert_at := some now }, true)
      else (st, false)
  else (st, false)

/-- The manual pause control: each press resets `paused_until` relative to
the press time. -/
def pauseAlarm (cfg : AlarmConfig) (now : ℚ) (st : AlarmState) : AlarmState :=
  { st with paused_until := some (now + cfg.pause_duration_seconds) }

theorem minList_eq_none_iff (l : List ℚ) : minList l = none ↔ l = [] := by
  cases l with
  | nil => simp [minList]
  | cons d rest =>
    simp only [minList]
    cases minList rest <;> simp

theorem minList_mem (l : List ℚ) (m : ℚ) (h : minList l = some m) : m ∈ l := by
  induction l generalizing m with
  | nil => simp [minList] at h
  | cons d rest ih =>
    simp only [minList] at h
    cases hr : minList rest with
    | none =>
      rw [hr] at h
      simp only [Option.some.injEq] at h
      subst h
      exact List.mem_cons_self _ _
    | some m2 =>
      rw [hr] at h
      simp only [Option.some.injEq] at h
      subst h
      rcases min_cases d m2 with ⟨he, -⟩ | ⟨he, -⟩
      · rw [he]
        exact List.mem_cons_self _ _
      · rw [he]
        exact List.mem_cons_of_mem _ (ih m2 hr)

theorem minList_le (l : List ℚ) (m : ℚ) (h : minList l = some m) :
    ∀ d ∈ l, m ≤ d := by
  induction l generalizing m with
  | nil => simp [minList] at h
  | cons d rest ih =>
    simp only [minList] at h
    intro x hx
    rw [List.mem_cons] at hx
    cases hr : minList rest with
    | none =>
      rw [hr] at h
      simp only [Option.some.injEq] at h
      subst h
      rcases hx with hx | hx
      · rw [hx]
      · have hnil : rest = [] := (minList_eq_none_iff rest).mp hr
        subst hnil
        exact absurd hx (List.not_mem_nil x)
    | some m2 =>
      rw [hr] at h
      simp only [Option.some.injEq] at h
      subst h
      rcases hx with hx | hx
      · rw [hx]
        exact min_le_left _ _
      · exact le_trans (min_le_right _ _) (ih m2 hr x hx)

theorem evaluate_none (cfg : AlarmConfig) (now : ℚ) (frame : List ℚ)
    (st : AlarmState) (hmon : monitoring now st = true)
    (hm : minValid frame = none) :
    evaluate cfg now frame st = (st, false) := by
  unfold evaluate
  rw [if_pos hmon, hm]

theorem evaluate_some (cfg : AlarmConfig) (now : ℚ) (frame : List ℚ)
    (st : AlarmState) (hmon : monitoring now st = true) (m : ℚ)
    (hm : minValid frame = some m) :
    evaluate cfg now frame st =
      if m < cfg.distance_threshold_cm ∧ rateOk cfg now st = true then
        ({ st with last_alert_at := some now }, true)
      else (st, false) := by
  unfold evaluate
  rw [if_pos hmon, hm]

/-- **C9.**  (Modelled from the spec.)  While Monitoring, on each received
frame the controller takes the minimum over the non-`INVALID` channel
distances; if every channel is `INVALID` it takes no alarm action and the
state is unchanged; otherwise it plays the alert and sets `last_alert_at :=
now` exactly when `min_distance < distance_threshold_cm` and the rate limit
`now - last_alert_at ≥ min_interval_between_alerts_sec` passes, and when
the rate limit (or threshold) blocks it the alert is skipped with the state
unchanged — nothing is queued. -/
theorem claim_C9_alarm_evaluate (cfg : AlarmConfig) (now : ℚ)
    (frame : List ℚ) (st : AlarmState) (hmon : monitoring now st = true) :
    (minValid frame = none ↔ ∀ d ∈ frame, d = INVALID) ∧
    (minValid frame = none → evaluate cfg now frame st = (st, false)) ∧
    (∀ m, minValid frame = some m →
      (m ∈ frame ∧ m ≠ INVALID ∧ ∀ d ∈ frame, d ≠ INVALID → m ≤ d) ∧
      ((evaluate cfg now frame st).2 = true ↔
        (m < cfg.distance_threshold_cm ∧ rateOk cfg now st = true)) ∧
      ((evaluate cfg now frame st).2 = true →
        (evaluate cfg now frame st).1 = { st with last_alert_at := some now }) ∧
      ((evaluate cfg now frame st).2 = false →
        evaluate cfg now frame st = (st, false))) := by
  refine ⟨?_, ?_, ?_⟩
  · rw [minValid, minList_eq_none_iff, List.filter_eq_nil_iff]
    simp
  · exact evaluate_none cfg now frame st hmon
  · intro m hm
    have hmem : m ∈ frame.filter fun d => decide (d ≠ INVALID) :=
      minList_mem _ m hm
    rw [List.mem_filter] at hmem
    have heval := evaluate_some cfg now frame st hmon m hm
    refine ⟨⟨hmem.1, by simpa using hmem.2, fun d hd hdv => ?_⟩, ?_, ?_, ?_⟩
    · exact minList_le _ m hm d (List.mem_filter.mpr ⟨hd, by simpa⟩)
    · rw [heval]
      by_cases hc : m < cfg.distance_threshold_cm ∧ rateOk cfg now st = true
      · rw [if_pos hc]
        simpa using hc
      · rw [if_neg hc]
        simpa using hc
    · rw [heval]
      intro ht
      by_cases hc : m < cfg.distance_threshold_cm ∧ rateOk cfg now st = true
      · rw [if_pos hc]
      · rw [if_neg hc] at ht
        exact absurd ht (by simp)
    · rw [heval]
      intro ht
      by_cases hc : m < cfg.distance_threshold_cm ∧ rateOk cfg now st = true
      · rw [if_pos hc] at ht
        exact absurd ht (by simp)
      · rw [if_neg hc]

theorem claim_C9_alarm_evaluate_witness :
    (evaluate ⟨80, 1, 120⟩ 0 [453 / 10, 120] ⟨none, none⟩).2 = true := by
  have h := claim_C9_alarm_evaluate ⟨80, 1, 120⟩ 0 [453 / 10, 120]
    ⟨none, none⟩ rfl
  have hmin : minValid [453 / 10, 120] = some (453 / 10) := by
    simp only [minValid, List.filter, INVALID_eq, minList]
    norm_num
    show some (min (453 / 10 : ℚ) 120) = some (453 / 10)
    rw [min_eq_left (by norm_num)]
  rcases h.2.2 (453 / 10) hmin with ⟨-, hiff, -, -⟩
  rw [hiff]
  exact ⟨by norm_num, rfl⟩

end Mezzanine
